import Mathlib

/-!
Verification of `aggrefiles` (`src/aggrefiles/__main__.py`): a shallow
embedding of the aggregator over a model of the file tree under the root
directory, together with theorems settling the specification's claims.

Modelling conventions:

* The file tree under the (resolved) root is a list of entries, one per
  path that `root.rglob("*")` yields, keyed by its root-relative path in
  `/`-separated (`as_posix`) form.  Directories and files are both
  listed, mirroring `rglob`, which enumerates every entry (it does not
  prune ignored directories; each entry is tested individually).
* File contents are modelled as the already-decoded text that
  `read_text(encoding="utf-8", errors="replace")` returns; a file whose
  read raises is modelled by the exception message.
* `path.resolve() == output` is modelled by comparing root-relative
  paths: `outputRel : Option String` is the relative path of the
  resolved output when it lies under the root (`none` when it lies
  outside).  Symbolic links are not modelled.
* `files.sort()` sorts `pathlib.Path` objects; `PurePath.__lt__`
  compares the tuple of path components.  Every collected path carries
  the root's components as a common prefix, so this equals lexicographic
  order on the component lists of the relative paths, components
  compared codepoint-wise — which is how the sort is modelled.  Note
  this is not codepoint order on the joined `as_posix` strings: with a
  file `a.txt` beside a directory `a/`, `a/b.txt` sorts before `a.txt`
  component-wise, while the joined strings order the other way
  (`'.'` is below `'/'`).
-/

namespace Aggrefiles

/-- `listIsPrefixB s l` decides whether `s` is a contiguous prefix of `l`. -/
def listIsPrefixB : List Char → List Char → Bool
  | [], _ => true
  | _ :: _, [] => false
  | a :: as, b :: bs => a == b && listIsPrefixB as bs

/-- `containsSeq sep l` decides whether `sep` occurs contiguously in `l`. -/
def containsSeq (sep : List Char) : List Char → Bool
  | [] => listIsPrefixB sep []
  | x :: rest => listIsPrefixB sep (x :: rest) || containsSeq sep rest

/-- Split a character list at every occurrence of the sequence `sep`,
scanning left to right (the embedding of splitting a text on a separator
substring). -/
def splitOnSeq (sep : List Char) : List Char → List (List Char)
  | [] => [[]]
  | x :: rest =>
    if listIsPrefixB sep (x :: rest) then
      [] :: splitOnSeq sep (rest.drop (sep.length - 1))
    else
      (x :: (splitOnSeq sep rest).headD []) :: (splitOnSeq sep rest).tail
termination_by l => l.length
decreasing_by
  all_goals simp only [List.length_drop, List.length_cons]
  all_goals omega

/-- Embedding of Python's `str.lower()` (ASCII case folding). -/
def pyLower (s : String) : String := ⟨s.data.map Char.toLower⟩

/-- Index of the last occurrence of `c` (Python's `str.rfind`), if any. -/
def rfindIdx (c : Char) : List Char → Option Nat
  | [] => none
  | x :: xs =>
    match rfindIdx c xs with
    | some i => some (i + 1)
    | none => if x == c then some 0 else none

/-- Embedding of `pathlib.PurePath.suffix` on a file name: the part from
the last dot on, provided that dot is neither the first nor the last
character of the name; otherwise the empty string. -/
def pySuffix (name : String) : String :=
  match rfindIdx '.' name.data with
  | some i => if 0 < i ∧ i < name.data.length - 1 then ⟨name.data.drop i⟩ else ""
  | none => ""

/-- The final `/`-separated component of a relative path (`path.name`). -/
def lastComponent (rel : String) : String :=
  ⟨(rel.data.reverse.takeWhile (fun c => c != '/')).reverse⟩

/-- Embedding of `content.endswith("\n")`. -/
def pyEndsWithNL (s : String) : Bool := s.data.getLast? == some '\n'

/-- Embedding of `ext.startswith(".")` from `main`. -/
def startsWithDot (s : String) : Bool :=
  match s.data with
  | [] => false
  | c :: _ => c == '.'

/-- `main`'s normalization: `if not ext.startswith("."): ext = "." + ext`. -/
def cliNormalizeExt (ext : String) : String :=
  if startsWithDot ext then ext else "." ++ ext

/-- One entry of the tree under the root, as yielded by `root.rglob("*")`:
a directory (or other non-regular entry), a readable file with its
decoded text, or a file whose `read_text` raises an exception whose
message is `msg`. -/
inductive Entry where
  | dir : Entry
  | fileOk (content : String) : Entry
  | fileErr (msg : String) : Entry
deriving DecidableEq

/-- `path.is_file()`. -/
def Entry.isFile : Entry → Bool
  | .dir => false
  | .fileOk _ => true
  | .fileErr _ => true

/-- The file tree under the resolved root: each entry keyed by its
root-relative path with `/` separators (`path.relative_to(root).as_posix()`). -/
abbrev FS := List (String × Entry)

/-- `content = file_path.read_text(...)` inside `try`, with the `except`
clause substituting the bracketed error marker. -/
def readContent : Entry → String
  | .dir => ""
  | .fileOk c => c
  | .fileErr msg => "[Error reading file: " ++ msg ++ "]"

/-- Whether the optional ignore matcher skips `rel`
(`gitignore_spec is not None and gitignore_spec.match_file(rel_path_str)`). -/
def matcherHits (m : Option (String → Bool)) (rel : String) : Bool :=
  match m with
  | some f => f rel
  | none => false

/-- The body of the collection loop: an entry survives iff the matcher
does not skip it, it is a regular file whose lowercased suffix equals the
(lowercased) filter, and it is not the output file itself. -/
def keep (m : Option (String → Bool)) (ext : String) (outputRel : Option String)
    (p : String × Entry) : Bool :=
  if matcherHits m p.1 then false
  else p.2.isFile && pyLower (pySuffix (lastComponent p.1)) == ext
    && outputRel != some p.1

/-- The `files` list collected by the loop (before sorting); `ext` is the
already-lowercased filter. -/
def candidateFiles (fs : FS) (ext : String) (outputRel : Option String)
    (m : Option (String → Bool)) : List (String × Entry) :=
  fs.filter (keep m ext outputRel)

/-- Codepoint-lexicographic strict comparison of character lists: the
order Python uses to compare the path strings. -/
def listLtB : List Char → List Char → Bool
  | [], [] => false
  | [], _ :: _ => true
  | _ :: _, [] => false
  | x :: xs, y :: ys => decide (x < y) || (x == y && listLtB xs ys)

/-- The `/`-separated components of a relative path, as character lists:
`pathlib` compares paths by their component tuples. -/
def pathParts (s : String) : List (List Char) := s.data.splitOn '/'

/-- Lexicographic comparison of component lists, components compared
codepoint-wise: the strict order `PurePath.__lt__` induces on the
collected paths (all sharing the root's components as a prefix). -/
def partsLtB : List (List Char) → List (List Char) → Bool
  | [], [] => false
  | [], _ :: _ => true
  | _ :: _, [] => false
  | x :: xs, y :: ys => listLtB x y || (x == y && partsLtB xs ys)

/-- Non-strict component-wise comparison of path strings. -/
def pathLeB (a b : String) : Bool := !(partsLtB (pathParts b) (pathParts a))

/-- `files.sort()`: ascending component-wise lexicographic order of the
relative paths. -/
def sortFiles (l : List (String × Entry)) : List (String × Entry) :=
  List.insertionSort (fun a b => pathLeB a.1 b.1 = true) l

/-- The sorted candidate list of a run whose raw extension filter is `ext0`. -/
def sortedCandidates (fs : FS) (ext0 : String) (outputRel : Option String)
    (m : Option (String → Bool)) : List (String × Entry) :=
  sortFiles (candidateFiles fs (pyLower ext0) outputRel m)

/-- `separator = "-" * 80`. -/
def sepLine : String := ⟨List.replicate 80 '-'⟩

/-- The content as written: the decoded text, followed by a newline when
the text does not already end with one. -/
def normContent (c : String) : String :=
  if pyEndsWithNL c then c else c ++ "\n"

/-- The text written for one file: relative path, newline, content
(normalized to end with a newline), separator line, blank line. -/
def fileBlock (p : String × Entry) : String :=
  p.1 ++ "\n" ++ normContent (readContent p.2) ++ sepLine ++ "\n\n"

/-- Sequential concatenation of the written strings. -/
def joinStr : List String → String
  | [] => ""
  | s :: rest => s ++ joinStr rest

/-- The aggregator `aggregate_files`: returns the output artifact (`some`
of the written text, or `none` when nothing is written) and the returned
count. -/
def aggregate_files (fs : FS) (ext0 : String) (outputRel : Option String)
    (m : Option (String → Bool)) : Option String × Nat :=
  let ext := pyLower ext0
  let sorted := sortFiles (candidateFiles fs ext outputRel m)
  if sorted.isEmpty then (none, 0)
  else (some (joinStr (sorted.map fileBlock)), sorted.length)

/-- The `/`-separated components of a relative path. -/
def relComps (rel : String) : List String :=
  (rel.data.splitOn '/').map (fun l => ⟨l⟩)

/-- The proper ancestor directories of a relative path, outermost first
(`output.parent` and its ancestors inside the root). -/
def ancestorPaths (rel : String) : List String :=
  (List.range' 1 ((relComps rel).length - 1)).map
    (fun i => String.intercalate "/" ((relComps rel).take i))

/-- The directory entries `output.parent.mkdir(parents=True, exist_ok=True)`
may create under the root. -/
def parentDirEntries (rel : String) : List (String × Entry) :=
  (ancestorPaths rel).map (fun d => (d, Entry.dir))

/-- The tree under root after the artifact has been written to the output
file at relative path `r`: missing parent directories are created, then
the output file is created or truncated and holds the written text. -/
def writeOutputFile (fs : FS) (r : String) (content : String) : FS :=
  let fs1 := fs ++ (parentDirEntries r).filter (fun d => !(fs.any (fun p => p.1 == d.1)))
  if fs1.any (fun p => p.1 == r) then
    fs1.map (fun p => if p.1 == r then (p.1, Entry.fileOk content) else p)
  else fs1 ++ [(r, Entry.fileOk content)]

/-- The tree under root after one run of `aggregate_files`: unchanged
when no artifact is produced (the empty case returns before `mkdir` and
`open`) and when the output lies outside the root; otherwise the
artifact is written at the output path. -/
def runEffect (fs : FS) (ext0 : String) (outputRel : Option String)
    (m : Option (String → Bool)) : FS :=
  match (aggregate_files fs ext0 outputRel m).1, outputRel with
  | some art, some r => writeOutputFile fs r art
  | _, _ => fs

/-- The separator exactly as §4.2 step 7 of the spec words it: a line of
exactly 80 dash characters. -/
def specSeparatorLine : String := ⟨List.replicate 80 '-'⟩

/-- One output block as the spec words it: the relative path followed by
a newline, the decoded content, a newline only if the content did not
already end with one, then the separator line and one blank line. -/
def specBlock (rel content : String) : String :=
  (rel ++ "\n") ++ content ++ (if pyEndsWithNL content then "" else "\n")
    ++ (specSeparatorLine ++ "\n") ++ "\n"

/-- `specBlock` applied to a candidate entry. -/
def specBlockOf (p : String × Entry) : String := specBlock p.1 (readContent p.2)

/-- Modelled from the spec: ignore matching is delegated to the external
`pathspec` gitwildmatch library, which is not part of this repository's
sources.  Per §4.1, a directory-only rule `d/` (trailing slash) matches
the directory `d` itself and every path inside it. -/
def dirOnlyRuleMatches (d : String) (p : String) : Bool :=
  p == d || listIsPrefixB (d.data ++ ['/']) p.data

/-- The characters of the separator-plus-blank-line text that terminates
every block. -/
def sepChars : List Char := List.replicate 80 '-' ++ ['\n', '\n']

/-- The text of one block before its separator: relative path, newline,
newline-normalized content. -/
def pieceData (p : String × Entry) : List Char :=
  p.1.data ++ '\n' :: (normContent (readContent p.2)).data

/-! ### Lemmas about the candidate filter -/

theorem keep_eq_false_output (m : Option (String → Bool)) (e : String) (r : String)
    (p : String × Entry) (h : p.1 = r) : keep m e (some r) p = false := by
  unfold keep
  split
  · rfl
  · simp [h]

theorem keep_eq_false_dir (m : Option (String → Bool)) (e : String) (o : Option String)
    (rel : String) : keep m e o (rel, Entry.dir) = false := by
  unfold keep
  split
  · rfl
  · simp [Entry.isFile]

theorem keep_eq_true_iff (m : Option (String → Bool)) (e : String) (o : Option String)
    (p : String × Entry) :
    keep m e o p = true ↔ matcherHits m p.1 = false ∧ p.2.isFile = true
      ∧ pyLower (pySuffix (lastComponent p.1)) = e ∧ o ≠ some p.1 := by
  unfold keep
  split
  · rename_i hm
    simp [hm]
  · rename_i hm
    rw [Bool.not_eq_true] at hm
    simp [hm, Bool.and_eq_true, beq_iff_eq, bne_iff_ne, and_assoc]

theorem mem_sortedCandidates (fs : FS) (ext0 : String) (o : Option String)
    (m : Option (String → Bool)) (p : String × Entry) :
    p ∈ sortedCandidates fs ext0 o m ↔ p ∈ fs ∧ keep m (pyLower ext0) o p = true := by
  rw [sortedCandidates, sortFiles, candidateFiles]
  simp [List.mem_insertionSort, List.mem_filter]

/-! ### Lemmas about `pySuffix` and lowercasing -/

theorem toLower_eq_dot (c : Char) (h : Char.toLower c = '.') : c = '.' := by
  unfold Char.toLower at h
  simp only [] at h
  by_cases hr : c.toNat ≥ 65 ∧ c.toNat ≤ 90
  · rw [if_pos hr] at h
    obtain ⟨h1, h2⟩ := hr
    interval_cases hn : c.toNat <;> exact absurd h (by decide)
  · rwa [if_neg hr] at h

theorem rfindIdx_none (c : Char) (l : List Char) (h : rfindIdx c l = none) :
    ∀ x ∈ l, x ≠ c := by
  induction l with
  | nil => simp
  | cons y ys ih =>
    cases hys : rfindIdx c ys with
    | some i => simp [rfindIdx, hys] at h
    | none =>
      simp only [rfindIdx, hys] at h
      intro x hx
      rcases List.mem_cons.mp hx with rfl | hx'
      · intro hyc
        simp [hyc] at h
      · exact ih hys x hx'

theorem rfindIdx_drop (c : Char) (l : List Char) (i : Nat) (h : rfindIdx c l = some i) :
    ∃ rest, l.drop i = c :: rest ∧ ∀ x ∈ rest, x ≠ c := by
  induction l generalizing i with
  | nil => simp [rfindIdx] at h
  | cons y ys ih =>
    cases hys : rfindIdx c ys with
    | some j =>
      simp only [rfindIdx, hys] at h
      obtain rfl : j + 1 = i := by simpa using h
      simpa using ih j hys
    | none =>
      simp only [rfindIdx, hys] at h
      by_cases hyc : y = c
      · rw [if_pos (by simp [hyc])] at h
        obtain rfl : (0 : Nat) = i := by simpa using h
        refine ⟨ys, ?_, rfindIdx_none c ys hys⟩
        simp [hyc]
      · rw [if_neg (by simp [hyc])] at h
        exact absurd h (by simp)

theorem pySuffix_data_cases (name : String) :
    pySuffix name = "" ∨ ∃ rest, (pySuffix name).data = '.' :: rest ∧ ∀ x ∈ rest, x ≠ '.' := by
  cases hf : rfindIdx '.' name.data with
  | none =>
    left
    simp [pySuffix, hf]
  | some i =>
    by_cases hcond : 0 < i ∧ i < name.data.length - 1
    · right
      obtain ⟨rest, hdrop, hrest⟩ := rfindIdx_drop '.' name.data i hf
      refine ⟨rest, ?_, hrest⟩
      simp only [pySuffix, hf, if_pos hcond]
      exact hdrop
    · left
      simp only [pySuffix, hf, if_neg hcond]

theorem pyLower_pySuffix_ne_targz (s : String) : pyLower (pySuffix s) ≠ ".tar.gz" := by
  rcases pySuffix_data_cases s with h | ⟨rest, hdata, hrest⟩
  · rw [h]; decide
  · intro hcon
    have hd : (pyLower (pySuffix s)).data = (".tar.gz" : String).data := by rw [hcon]
    rw [show (pyLower (pySuffix s)).data = List.map Char.toLower ('.' :: rest) from by
      simp [pyLower, hdata]] at hd
    rw [show (".tar.gz" : String).data = ['.', 't', 'a', 'r', '.', 'g', 'z'] from rfl] at hd
    rw [List.map_cons] at hd
    have htail : rest.map Char.toLower = ['t', 'a', 'r', '.', 'g', 'z'] :=
      (List.cons.injEq _ _ _ _ ▸ hd).2
    have hmem : '.' ∈ rest.map Char.toLower := by rw [htail]; decide
    obtain ⟨x, hx, hlx⟩ := List.mem_map.mp hmem
    exact hrest x hx (toLower_eq_dot x hlx)

/-! ### Claims C3 and C9 -/

/-- C3: the output artifact is never a candidate of its own run — whenever
the resolved output lies under the root at relative path `r`, no candidate's
relative path equals `r`, whatever the extension filter and matcher. -/
theorem claim_C3 (fs : FS) (ext0 : String) (m : Option (String → Bool)) (r : String) :
    (sortedCandidates fs ext0 (some r) m).all (fun p => !(p.1 == r)) = true := by
  rw [List.all_eq_true]
  intro p hp
  have hkeep := ((mem_sortedCandidates fs ext0 (some r) m p).mp hp).2
  by_contra hcon
  have hpr : p.1 = r := by
    rcases em (p.1 = r) with h | h
    · exact h
    · exact absurd (by simp [h]) hcon
  rw [keep_eq_false_output m (pyLower ext0) r p hpr] at hkeep
  exact absurd hkeep (by simp)

/-- C9: extension matching uses only the final dot-suffix of the file
name — a dotfile named exactly `.txt` has empty suffix and is never a
candidate under filter `.txt`, and a multi-part filter `.tar.gz` matches
no file at all. -/
theorem claim_C9 :
    pySuffix ".txt" = ""
    ∧ (∀ (fs : FS) (o : Option String) (m : Option (String → Bool)),
        (sortedCandidates fs ".txt" o m).all (fun p => !(lastComponent p.1 == ".txt")) = true)
    ∧ (∀ (fs : FS) (o : Option String) (m : Option (String → Bool)),
        sortedCandidates fs ".tar.gz" o m = []) := by
  refine ⟨by decide, ?_, ?_⟩
  · intro fs o m
    rw [List.all_eq_true]
    intro p hp
    have hkeep := ((mem_sortedCandidates fs ".txt" o m p).mp hp).2
    have hsuf := ((keep_eq_true_iff m (pyLower ".txt") o p).mp hkeep).2.2.1
    by_contra hcon
    have hlast : lastComponent p.1 = ".txt" := by
      rcases em (lastComponent p.1 = ".txt") with h | h
      · exact h
      · exact absurd (by simp [h]) hcon
    rw [hlast] at hsuf
    exact absurd hsuf (by decide)
  · intro fs o m
    rw [sortedCandidates, candidateFiles]
    rw [List.filter_eq_nil_iff.mpr ?_]
    · rfl
    · intro p _ hkeep
      have hsuf := ((keep_eq_true_iff m (pyLower ".tar.gz") o p).mp hkeep).2.2.1
      rw [show pyLower ".tar.gz" = ".tar.gz" from by decide] at hsuf
      exact pyLower_pySuffix_ne_targz (lastComponent p.1) hsuf

/-! ### Ordering of the sorted candidate list -/

theorem listLtB_irrefl (l : List Char) : listLtB l l = false := by
  induction l with
  | nil => rfl
  | cons x xs ih => simp [listLtB, ih, lt_irrefl]

theorem listLtB_trans (a b c : List Char) (hab : listLtB a b = true)
    (hbc : listLtB b c = true) : listLtB a c = true := by
  induction a generalizing b c with
  | nil =>
    cases c with
    | nil =>
      cases b with
      | nil => exact absurd hab (by simp [listLtB])
      | cons y ys => exact absurd hbc (by simp [listLtB])
    | cons z zs => simp [listLtB]
  | cons x xs ih =>
    cases b with
    | nil => exact absurd hab (by simp [listLtB])
    | cons y ys =>
      cases c with
      | nil => exact absurd hbc (by simp [listLtB])
      | cons z zs =>
        simp only [listLtB, Bool.or_eq_true, Bool.and_eq_true, decide_eq_true_eq,
          beq_iff_eq] at hab hbc ⊢
        rcases hab with h1 | ⟨rfl, h1⟩
        · rcases hbc with h2 | ⟨rfl, h2⟩
          · exact Or.inl (lt_trans h1 h2)
          · exact Or.inl h1
        · rcases hbc with h2 | ⟨rfl, h2⟩
          · exact Or.inl h2
          · exact Or.inr ⟨rfl, ih ys zs h1 h2⟩

theorem listLtB_connex (a b : List Char) (hab : listLtB a b = false)
    (hba : listLtB b a = false) : a = b := by
  induction a generalizing b with
  | nil =>
    cases b with
    | nil => rfl
    | cons y ys => exact absurd hab (by simp [listLtB])
  | cons x xs ih =>
    cases b with
    | nil => exact absurd hba (by simp [listLtB])
    | cons y ys =>
      simp only [listLtB, Bool.or_eq_false_iff, Bool.and_eq_false_iff,
        decide_eq_false_iff_not, beq_eq_false_iff_ne, ne_eq] at hab hba
      have hxy : x = y := le_antisymm (le_of_not_lt hba.1) (le_of_not_lt hab.1)
      subst hxy
      rcases hab.2 with h | h
      · exact absurd rfl h
      · rcases hba.2 with h' | h'
        · exact absurd rfl h'
        · rw [ih ys h h']

theorem listLtB_asymm (a b : List Char) (h : listLtB a b = true) : listLtB b a = false := by
  by_contra hcon
  rw [Bool.not_eq_false] at hcon
  have := listLtB_trans a b a h hcon
  rw [listLtB_irrefl] at this
  exact Bool.false_ne_true this

theorem listLtB_iff_lex (xs ys : List Char) :
    listLtB xs ys = true ↔ List.Lex (· < ·) xs ys := by
  induction xs generalizing ys with
  | nil =>
    cases ys with
    | nil =>
      constructor
      · intro h; exact absurd h (by simp [listLtB])
      · intro h; cases h
    | cons y ys' =>
      constructor
      · intro _; exact List.Lex.nil
      · intro _; rfl
  | cons x xs' ih =>
    cases ys with
    | nil =>
      constructor
      · intro h; exact absurd h (by simp [listLtB])
      · intro h; cases h
    | cons y ys' =>
      simp only [listLtB, Bool.or_eq_true, Bool.and_eq_true, decide_eq_true_eq,
        beq_iff_eq, ih]
      constructor
      · rintro (h | ⟨rfl, h⟩)
        · exact List.Lex.rel h
        · exact List.Lex.cons h
      · intro h
        cases h with
        | cons h => exact Or.inr ⟨rfl, h⟩
        | rel h => exact Or.inl h

theorem partsLtB_irrefl (l : List (List Char)) : partsLtB l l = false := by
  induction l with
  | nil => rfl
  | cons x xs ih => simp [partsLtB, listLtB_irrefl, ih]

theorem partsLtB_trans (a b c : List (List Char)) (hab : partsLtB a b = true)
    (hbc : partsLtB b c = true) : partsLtB a c = true := by
  induction a generalizing b c with
  | nil =>
    cases c with
    | nil =>
      cases b with
      | nil => exact absurd hab (by simp [partsLtB])
      | cons y ys => exact absurd hbc (by simp [partsLtB])
    | cons z zs => simp [partsLtB]
  | cons x xs ih =>
    cases b with
    | nil => exact absurd hab (by simp [partsLtB])
    | cons y ys =>
      cases c with
      | nil => exact absurd hbc (by simp [partsLtB])
      | cons z zs =>
        simp only [partsLtB, Bool.or_eq_true, Bool.and_eq_true, beq_iff_eq] at hab hbc ⊢
        rcases hab with h1 | ⟨rfl, h1⟩
        · rcases hbc with h2 | ⟨rfl, h2⟩
          · exact Or.inl (listLtB_trans _ _ _ h1 h2)
          · exact Or.inl h1
        · rcases hbc with h2 | ⟨rfl, h2⟩
          · exact Or.inl h2
          · exact Or.inr ⟨rfl, ih ys zs h1 h2⟩

theorem partsLtB_connex (a b : List (List Char)) (hab : partsLtB a b = false)
    (hba : partsLtB b a = false) : a = b := by
  induction a generalizing b with
  | nil =>
    cases b with
    | nil => rfl
    | cons y ys => exact absurd hab (by simp [partsLtB])
  | cons x xs ih =>
    cases b with
    | nil => exact absurd hba (by simp [partsLtB])
    | cons y ys =>
      simp only [partsLtB, Bool.or_eq_false_iff, Bool.and_eq_false_iff,
        beq_eq_false_iff_ne, ne_eq] at hab hba
      have hxy : x = y := listLtB_connex x y hab.1 hba.1
      subst hxy
      rcases hab.2 with h | h
      · exact absurd rfl h
      · rcases hba.2 with h' | h'
        · exact absurd rfl h'
        · rw [ih ys h h']

theorem partsLtB_asymm (a b : List (List Char)) (h : partsLtB a b = true) :
    partsLtB b a = false := by
  by_contra hcon
  rw [Bool.not_eq_false] at hcon
  have := partsLtB_trans a b a h hcon
  rw [partsLtB_irrefl] at this
  exact Bool.false_ne_true this

theorem partsLtB_iff_lex (xs ys : List (List Char)) :
    partsLtB xs ys = true
      ↔ List.Lex (fun s t : List Char => List.Lex (· < ·) s t) xs ys := by
  induction xs generalizing ys with
  | nil =>
    cases ys with
    | nil =>
      constructor
      · intro h; exact absurd h (by simp [partsLtB])
      · intro h; cases h
    | cons y ys' =>
      constructor
      · intro _; exact List.Lex.nil
      · intro _; rfl
  | cons x xs' ih =>
    cases ys with
    | nil =>
      constructor
      · intro h; exact absurd h (by simp [partsLtB])
      · intro h; cases h
    | cons y ys' =>
      simp only [partsLtB, Bool.or_eq_true, Bool.and_eq_true, beq_iff_eq,
        listLtB_iff_lex, ih]
      constructor
      · rintro (h | ⟨rfl, h⟩)
        · exact List.Lex.rel h
        · exact List.Lex.cons h
      · intro h
        cases h with
        | cons h => exact Or.inr ⟨rfl, h⟩
        | rel h => exact Or.inl h

theorem pathParts_inj (a b : String) (h : pathParts a = pathParts b) : a = b := by
  apply String.ext
  have ha := List.intercalate_splitOn a.data '/'
  have hb := List.intercalate_splitOn b.data '/'
  rw [← ha, ← hb]
  unfold pathParts at h
  rw [h]

instance keyRelTotal : IsTotal (String × Entry)
    (fun a b : String × Entry => pathLeB a.1 b.1 = true) := by
  constructor
  intro a b
  unfold pathLeB
  by_cases h : partsLtB (pathParts b.1) (pathParts a.1) = true
  · right
    rw [partsLtB_asymm _ _ h]
    rfl
  · left
    rw [Bool.not_eq_true] at h
    rw [h]
    rfl

instance keyRelTrans : IsTrans (String × Entry)
    (fun a b : String × Entry => pathLeB a.1 b.1 = true) := by
  constructor
  intro a b c hab hbc
  unfold pathLeB at *
  simp only [Bool.not_eq_true'] at hab hbc ⊢
  by_contra hcon
  rw [Bool.not_eq_false] at hcon
  by_cases h : partsLtB (pathParts a.1) (pathParts b.1) = true
  · have := partsLtB_trans _ _ _ hcon h
    rw [hbc] at this
    exact Bool.false_ne_true this
  · rw [Bool.not_eq_true] at h
    have := partsLtB_connex _ _ h hab
    rw [this] at hcon
    rw [hbc] at hcon
    exact Bool.false_ne_true hcon

theorem sortedCandidates_sorted (fs : FS) (ext0 : String) (o : Option String)
    (m : Option (String → Bool)) :
    List.Pairwise (fun a b : String × Entry => pathLeB a.1 b.1 = true)
      (sortedCandidates fs ext0 o m) := by
  rw [sortedCandidates, sortFiles]
  exact List.sorted_insertionSort _ _

theorem sortedCandidates_nodup_keys (fs : FS) (ext0 : String) (o : Option String)
    (m : Option (String → Bool)) (hnd : (fs.map Prod.fst).Nodup) :
    ((sortedCandidates fs ext0 o m).map Prod.fst).Nodup := by
  have hsub : (candidateFiles fs (pyLower ext0) o m).Sublist fs := List.filter_sublist fs
  have h1 : ((candidateFiles fs (pyLower ext0) o m).map Prod.fst).Nodup :=
    (hsub.map Prod.fst).nodup hnd
  have hperm : (sortedCandidates fs ext0 o m).Perm (candidateFiles fs (pyLower ext0) o m) := by
    rw [sortedCandidates, sortFiles]
    exact List.perm_insertionSort _ _
  exact ((hperm.map Prod.fst).nodup_iff).mpr h1

/-- C1 (amended): the candidate set is exactly the regular files under
root whose lowercased suffix equals the (lowercased) filter, minus
matcher hits and the output file itself, and the list is strictly
ascending in the lexicographic order of the component lists of the
relative paths (components compared codepoint-wise) — the order
`pathlib` path comparison induces, not codepoint order on the joined
strings. -/
theorem claim_C1 (fs : FS) (ext : String) (o : Option String) (m : Option (String → Bool))
    (hext : pyLower ext = ext) (hnd : (fs.map Prod.fst).Nodup) :
    (∀ p : String × Entry, p ∈ sortedCandidates fs ext o m ↔
        p ∈ fs ∧ p.2.isFile = true ∧ pyLower (pySuffix (lastComponent p.1)) = ext
          ∧ matcherHits m p.1 = false ∧ o ≠ some p.1)
    ∧ List.Pairwise (fun a b : String × Entry =>
        List.Lex (fun s t : List Char => List.Lex (· < ·) s t)
          (a.1.data.splitOn '/') (b.1.data.splitOn '/'))
        (sortedCandidates fs ext o m) := by
  constructor
  · intro p
    rw [mem_sortedCandidates, keep_eq_true_iff, hext]
    tauto
  · have hs := sortedCandidates_sorted fs ext o m
    have hn := sortedCandidates_nodup_keys fs ext o m hnd
    have hne : List.Pairwise (fun a b : String × Entry => a.1 ≠ b.1)
        (sortedCandidates fs ext o m) := List.pairwise_map.mp hn
    refine (hs.and hne).imp (fun hab => ?_)
    show List.Lex _ (pathParts _) (pathParts _)
    rw [← partsLtB_iff_lex]
    obtain ⟨hle, hneq⟩ := hab
    unfold pathLeB at hle
    simp only [Bool.not_eq_true'] at hle
    by_contra hcon
    rw [Bool.not_eq_true] at hcon
    exact hneq (pathParts_inj _ _ (partsLtB_connex _ _ hcon hle))

/-- The C1 counterexample tree: a file `a.txt` beside a directory `a/`
holding `b.txt`. -/
def fsC1 : FS := [("a.txt", Entry.fileOk "x"), ("a", Entry.dir), ("a/b.txt", Entry.fileOk "y")]

/-- C1 counterexample: `pathlib` sorts `a/b.txt` before `a.txt`
(component lists `["a", "b.txt"] < ["a.txt"]`), so the candidate list is
not in ascending codepoint-lexicographic order of the `/`-normalized
relative-path strings, under which `a.txt` (`'.'` = 46) precedes
`a/b.txt` (`'/'` = 47): the order the claim states is false of the
program. -/
theorem claim_C1_cex :
    sortedCandidates fsC1 ".txt" none none
      = [("a/b.txt", Entry.fileOk "y"), ("a.txt", Entry.fileOk "x")]
    ∧ ¬ List.Pairwise (fun a b : String × Entry => List.Lex (· < ·) a.1.data b.1.data)
        (sortedCandidates fsC1 ".txt" none none) := by
  have hs : sortedCandidates fsC1 ".txt" none none
      = [("a/b.txt", Entry.fileOk "y"), ("a.txt", Entry.fileOk "x")] := by decide
  refine ⟨hs, ?_⟩
  rw [hs]
  intro hp
  have hrel := (List.pairwise_cons.mp hp).1 ("a.txt", Entry.fileOk "x") (by simp)
  exact absurd hrel (by decide)

/-! ### Claim C7: extension normalization through the CLI pipeline -/

theorem startsWithDot_pyLower (s : String) : startsWithDot (pyLower s) = startsWithDot s := by
  have hdata : (pyLower s).data = s.data.map Char.toLower := rfl
  unfold startsWithDot
  rw [hdata]
  cases hd : s.data with
  | nil => rfl
  | cons c cs =>
    simp only [List.map_cons]
    show (Char.toLower c == '.') = (c == '.')
    by_cases hc : c = '.'
    · rw [hc]; decide
    · have h2 : Char.toLower c ≠ '.' := fun h => hc (toLower_eq_dot c h)
      simp [hc, h2]

theorem aggregate_files_ext_congr (fs : FS) (a b : String) (o : Option String)
    (m : Option (String → Bool)) (h : pyLower a = pyLower b) :
    aggregate_files fs a o m = aggregate_files fs b o m := by
  unfold aggregate_files
  rw [h]

theorem startsWithDot_dot_append (e : String) : startsWithDot ("." ++ e) = true := by
  have hdata : ("." ++ e).data = '.' :: e.data := by
    rw [String.data_append]
    rfl
  unfold startsWithDot
  rw [hdata]
  show ('.' == '.') = true
  decide

/-- C7: through the program's pipeline (`main` ensures the leading dot,
`aggregate_files` lowercases before comparing), extension matching is
case-insensitive, and a filter given without the leading dot behaves
exactly like the dotted one. -/
theorem claim_C7 (fs : FS) (o : Option String) (m : Option (String → Bool)) (e₁ e₂ : String) :
    (pyLower e₁ = pyLower e₂ →
      aggregate_files fs (cliNormalizeExt e₁) o m = aggregate_files fs (cliNormalizeExt e₂) o m)
    ∧ (startsWithDot e₁ = false →
      aggregate_files fs (cliNormalizeExt e₁) o m
        = aggregate_files fs (cliNormalizeExt ("." ++ e₁)) o m) := by
  constructor
  · intro h
    apply aggregate_files_ext_congr
    have hsd : startsWithDot e₁ = startsWithDot e₂ := by
      rw [← startsWithDot_pyLower e₁, ← startsWithDot_pyLower e₂, h]
    unfold cliNormalizeExt
    rw [hsd]
    split
    · exact h
    · apply String.ext
      show (("." ++ e₁).data.map Char.toLower) = (("." ++ e₂).data.map Char.toLower)
      rw [String.data_append, String.data_append]
      show List.map Char.toLower ('.' :: e₁.data) = List.map Char.toLower ('.' :: e₂.data)
      rw [List.map_cons, List.map_cons]
      have hmap : e₁.data.map Char.toLower = e₂.data.map Char.toLower := congrArg String.data h
      rw [hmap]
  · intro h
    unfold cliNormalizeExt
    rw [h, startsWithDot_dot_append]
    simp

/-! ### Claim C8: directory-only ignore rules exclude the whole subtree -/

/-- C8: with the (spec-modelled) gitwildmatch behavior of a directory-only
rule `d/`, no candidate of any run lies inside the directory `d`: the
aggregator tests every enumerated entry against the matcher, so every
descendant of `d` is skipped. -/
theorem claim_C8 (fs : FS) (ext0 : String) (o : Option String) (d : String) :
    (sortedCandidates fs ext0 o (some (dirOnlyRuleMatches d))).all
      (fun p => !(listIsPrefixB (d.data ++ ['/']) p.1.data)) = true := by
  rw [List.all_eq_true]
  intro p hp
  have hkeep := ((mem_sortedCandidates fs ext0 o (some (dirOnlyRuleMatches d)) p).mp hp).2
  have hm := ((keep_eq_true_iff _ _ _ p).mp hkeep).1
  simp only [matcherHits, dirOnlyRuleMatches, Bool.or_eq_false_iff] at hm
  simp [hm.2]

/-! ### Claim C10: the empty run has no filesystem effect -/

/-- C10: when no file survives filtering the aggregator returns count 0,
produces no artifact, and the tree under root is unchanged — no output
file is created or truncated and no parent directory is created, since
`mkdir` and `open` come only after the emptiness check. -/
theorem claim_C10 (fs : FS) (ext0 : String) (o : Option String) (m : Option (String → Bool))
    (h : candidateFiles fs (pyLower ext0) o m = []) :
    aggregate_files fs ext0 o m = (none, 0) ∧ runEffect fs ext0 o m = fs := by
  have hagg : aggregate_files fs ext0 o m = (none, 0) := by
    simp only [aggregate_files]
    rw [h]
    simp [sortFiles, List.insertionSort]
  refine ⟨hagg, ?_⟩
  unfold runEffect
  rw [hagg]

/-! ### Claim C6: a second run over the updated tree is identical -/

theorem filter_keep_parentDirs (fs : FS) (r : String) (e : String) (o : Option String)
    (m : Option (String → Bool)) :
    ((parentDirEntries r).filter (fun d => !(fs.any (fun p => p.1 == d.1)))).filter
      (keep m e o) = [] := by
  rw [List.filter_eq_nil_iff]
  intro p hp
  have hp' := List.mem_of_mem_filter hp
  obtain ⟨dpath, _, rfl⟩ := List.mem_map.mp hp'
  simp [keep_eq_false_dir]

theorem filter_keep_update (l : List (String × Entry)) (r : String) (c : String)
    (e : String) (m : Option (String → Bool)) :
    (l.map (fun p => if p.1 == r then (p.1, Entry.fileOk c) else p)).filter
        (keep m e (some r))
      = l.filter (keep m e (some r)) := by
  induction l with
  | nil => rfl
  | cons p t ih =>
    simp only [List.map_cons]
    by_cases hpr : p.1 = r
    · rw [if_pos (by simp [hpr])]
      rw [List.filter_cons, List.filter_cons]
      rw [keep_eq_false_output m e r (p.1, Entry.fileOk c) hpr]
      rw [keep_eq_false_output m e r p hpr]
      simpa using ih
    · rw [if_neg (by simp [hpr])]
      rw [List.filter_cons, List.filter_cons, ih]

theorem candidateFiles_writeOutput (fs : FS) (r : String) (c : String) (e : String)
    (m : Option (String → Bool)) :
    candidateFiles (writeOutputFile fs r c) e (some r) m = candidateFiles fs e (some r) m := by
  unfold writeOutputFile candidateFiles
  simp only []
  split
  · rw [filter_keep_update (fs ++ _) r c e m]
    rw [List.filter_append, filter_keep_parentDirs, List.append_nil]
  · rw [List.filter_append, List.filter_append, filter_keep_parentDirs]
    simp [keep_eq_false_output m e r (r, Entry.fileOk c) rfl]

/-- C6: running the aggregation a second time over the tree produced by
the first run (output self-excluded from the candidate set) yields the
byte-identical artifact and the same count. -/
theorem claim_C6 (fs : FS) (ext0 : String) (o : Option String) (m : Option (String → Bool)) :
    aggregate_files (runEffect fs ext0 o m) ext0 o m = aggregate_files fs ext0 o m := by
  unfold runEffect
  cases hart : (aggregate_files fs ext0 o m).1 with
  | none => cases o <;> rfl
  | some art =>
    cases o with
    | none => rfl
    | some r =>
      simp only []
      have hc := candidateFiles_writeOutput fs r art (pyLower ext0) m
      simp only [aggregate_files]
      rw [hc]

/-! ### The written artifact: block structure -/

theorem joinStr_append (a b : List String) : joinStr (a ++ b) = joinStr a ++ joinStr b := by
  induction a with
  | nil => simp [joinStr, String.empty_append]
  | cons s t ih => simp [joinStr, ih, String.append_assoc]

theorem aggregate_files_eq_of_ne_nil (fs : FS) (ext0 : String) (o : Option String)
    (m : Option (String → Bool)) (hne : sortedCandidates fs ext0 o m ≠ []) :
    aggregate_files fs ext0 o m
      = (some (joinStr ((sortedCandidates fs ext0 o m).map fileBlock)),
         (sortedCandidates fs ext0 o m).length) := by
  have hne' : (sortedCandidates fs ext0 o m).isEmpty = false := List.isEmpty_eq_false.mpr hne
  simp only [aggregate_files]
  rw [show sortFiles (candidateFiles fs (pyLower ext0) o m) = sortedCandidates fs ext0 o m
    from rfl]
  rw [hne']
  simp

theorem fileBlock_eq_specBlockOf (p : String × Entry) : fileBlock p = specBlockOf p := by
  have h2 : ("\n\n" : String).data = ("\n" : String).data ++ ("\n" : String).data := rfl
  unfold fileBlock specBlockOf specBlock normContent sepLine specSeparatorLine
  by_cases h : pyEndsWithNL (readContent p.2)
  · rw [if_pos h, if_pos h]
    apply String.ext
    simp [String.data_append, h2, List.append_assoc]
  · rw [if_neg h, if_neg h]
    apply String.ext
    simp [String.data_append, h2, List.append_assoc]

/-- C2: for every run with a non-empty sorted candidate list, the
artifact is exactly the concatenation, in order, of blocks of the form
described by §4.2 step 7 of the spec: relative path + newline, decoded
content, a newline only when missing, the 80-dash separator line, one
blank line; and the returned count is the number of blocks. -/
theorem claim_C2 (fs : FS) (ext0 : String) (o : Option String) (m : Option (String → Bool))
    (hne : sortedCandidates fs ext0 o m ≠ []) :
    aggregate_files fs ext0 o m
      = (some (joinStr ((sortedCandidates fs ext0 o m).map specBlockOf)),
         (sortedCandidates fs ext0 o m).length) := by
  rw [aggregate_files_eq_of_ne_nil fs ext0 o m hne]
  rw [show fileBlock = specBlockOf from funext fileBlock_eq_specBlockOf]

/-! ### Claim C4: per-file read failures are non-fatal -/

theorem pyEndsWithNL_marker (s : String) : pyEndsWithNL (s ++ "]") = false := by
  unfold pyEndsWithNL
  rw [show (s ++ "]").data = s.data ++ [']'] from by rw [String.data_append]]
  rw [List.getLast?_concat]
  decide

theorem normContent_fileErr (msg : String) :
    normContent (readContent (Entry.fileErr msg))
      = (("[Error reading file: " ++ msg) ++ "]") ++ "\n" := by
  rw [show readContent (Entry.fileErr msg) = ("[Error reading file: " ++ msg) ++ "]" from rfl]
  unfold normContent
  rw [pyEndsWithNL_marker]
  simp

/-- C4: a candidate file whose read raises is still written — its block
carries the bracketed error marker naming the failure — the remaining
files are still processed (the artifact is the full concatenation around
the marker block), and the returned count still includes the file. -/
theorem claim_C4 (fs : FS) (ext0 : String) (o : Option String) (m : Option (String → Bool))
    (rel msg : String)
    (hmem : (rel, Entry.fileErr msg) ∈ sortedCandidates fs ext0 o m) :
    (aggregate_files fs ext0 o m).2 = (sortedCandidates fs ext0 o m).length
    ∧ ∃ s₁ s₂ : String, (aggregate_files fs ext0 o m).1
        = some (s₁ ++ (rel ++ "\n" ++ "[Error reading file: " ++ msg ++ "]" ++ "\n"
            ++ sepLine ++ "\n\n") ++ s₂) := by
  have hne : sortedCandidates fs ext0 o m ≠ [] := fun h => by simp [h] at hmem
  have hagg := aggregate_files_eq_of_ne_nil fs ext0 o m hne
  refine ⟨by rw [hagg], ?_⟩
  obtain ⟨l₁, l₂, hsplit⟩ := List.append_of_mem hmem
  refine ⟨joinStr (l₁.map fileBlock), joinStr (l₂.map fileBlock), ?_⟩
  rw [hagg]
  show some (joinStr ((sortedCandidates fs ext0 o m).map fileBlock)) = _
  congr 1
  rw [hsplit]
  rw [List.map_append, joinStr_append, List.map_cons]
  rw [show joinStr (fileBlock (rel, Entry.fileErr msg) :: l₂.map fileBlock)
      = fileBlock (rel, Entry.fileErr msg) ++ joinStr (l₂.map fileBlock) from rfl]
  have hblock : fileBlock (rel, Entry.fileErr msg)
      = rel ++ "\n" ++ "[Error reading file: " ++ msg ++ "]" ++ "\n" ++ sepLine ++ "\n\n" := by
    unfold fileBlock
    rw [normContent_fileErr]
    apply String.ext
    simp [String.data_append, List.append_assoc]
  rw [hblock]
  apply String.ext
  simp [String.data_append, List.append_assoc]

/-! ### Claim C5: splitting the artifact on the separator -/

theorem listIsPrefixB_self_append (s t : List Char) : listIsPrefixB s (s ++ t) = true := by
  induction s with
  | nil => rfl
  | cons a as ih => simp [listIsPrefixB, ih]

theorem listIsPrefixB_iff (s l : List Char) :
    listIsPrefixB s l = true ↔ ∃ t, l = s ++ t := by
  induction s generalizing l with
  | nil => simp [listIsPrefixB]
  | cons a as ih =>
    cases l with
    | nil => simp [listIsPrefixB]
    | cons b bs =>
      simp only [listIsPrefixB, Bool.and_eq_true, beq_iff_eq, ih]
      constructor
      · rintro ⟨rfl, t, rfl⟩
        exact ⟨t, by rw [List.cons_append]⟩
      · rintro ⟨t, ht⟩
        rw [List.cons_append] at ht
        injection ht with h1 h2
        exact ⟨h1.symm, t, h2⟩

theorem containsSeq_of_drop (sep l : List Char) (i : Nat)
    (h : listIsPrefixB sep (l.drop i) = true) : containsSeq sep l = true := by
  induction l generalizing i with
  | nil =>
    rw [List.drop_nil] at h
    simpa [containsSeq] using h
  | cons x xs ih =>
    cases i with
    | zero =>
      rw [List.drop_zero] at h
      simp [containsSeq, h]
    | succ n =>
      rw [List.drop_succ_cons] at h
      simp [containsSeq, ih n h]

theorem containsSeq_parts (sep u v : List Char) : containsSeq sep (u ++ (sep ++ v)) = true := by
  apply containsSeq_of_drop sep _ u.length
  rw [List.drop_left]
  exact listIsPrefixB_self_append sep v

theorem splitOnSeq_nil (sep : List Char) : splitOnSeq sep [] = [[]] := by
  simp [splitOnSeq]

theorem splitOnSeq_cons (sep : List Char) (x : Char) (rest : List Char) :
    splitOnSeq sep (x :: rest)
      = if listIsPrefixB sep (x :: rest) then
          [] :: splitOnSeq sep (rest.drop (sep.length - 1))
        else
          (x :: (splitOnSeq sep rest).headD []) :: (splitOnSeq sep rest).tail := by
  rw [splitOnSeq]

theorem splitOnSeq_append (sep a rest : List Char) (hsep : sep ≠ [])
    (h : ∀ i, i < a.length → listIsPrefixB sep ((a ++ (sep ++ rest)).drop i) = false) :
    splitOnSeq sep (a ++ (sep ++ rest)) = a :: splitOnSeq sep rest := by
  induction a with
  | nil =>
    obtain ⟨c, s, rfl⟩ : ∃ c s, sep = c :: s := by
      cases sep with
      | nil => exact absurd rfl hsep
      | cons c s => exact ⟨c, s, rfl⟩
    rw [List.nil_append, List.cons_append, splitOnSeq_cons]
    have hpre : listIsPrefixB (c :: s) (c :: (s ++ rest)) = true :=
      listIsPrefixB_self_append (c :: s) rest
    rw [if_pos hpre]
    congr 1
    rw [show (c :: s).length - 1 = s.length from by simp]
    rw [List.drop_left]
  | cons x a' ih =>
    have h0 : listIsPrefixB sep ((x :: a') ++ (sep ++ rest)) = false := by
      have := h 0 (by simp)
      simpa using this
    have ih' := ih (fun i hi => by
      have := h (i + 1) (by simp only [List.length_cons]; omega)
      simpa using this)
    rw [List.cons_append, splitOnSeq_cons]
    rw [if_neg (by rw [show (x :: (a' ++ (sep ++ rest))) = ((x :: a') ++ (sep ++ rest))
        from rfl, h0]; exact Bool.false_ne_true)]
    rw [ih']
    rfl

theorem sepChars_no_occ (p rest : List Char) (hlast : p.getLast? = some '\n')
    (hnc : containsSeq sepChars p = false) :
    ∀ i, i < p.length → listIsPrefixB sepChars ((p ++ (sepChars ++ rest)).drop i) = false := by
  intro i hi
  by_contra hcon
  rw [Bool.not_eq_false] at hcon
  rw [List.drop_append_of_le_length (le_of_lt hi)] at hcon
  obtain ⟨t, ht⟩ := (listIsPrefixB_iff _ _).mp hcon
  rcases List.append_eq_append_iff.mp ht with ⟨a', ha1, ha2⟩ | ⟨c', hc1, hc2⟩
  · cases a' with
    | nil =>
      rw [List.append_nil] at ha1
      have hpre : listIsPrefixB sepChars (p.drop i) = true := by
        rw [← ha1]
        have := listIsPrefixB_self_append sepChars []
        rwa [List.append_nil] at this
      have hc := containsSeq_of_drop sepChars p i hpre
      rw [hnc] at hc
      exact Bool.false_ne_true hc
    | cons y a'' =>
      have hy : y = '-' := by
        have hhead : (sepChars ++ rest).head? = some y := by rw [ha2]; rfl
        rw [List.head?_append_of_ne_nil sepChars (by decide)] at hhead
        rw [show sepChars.head? = some '-' from by decide] at hhead
        exact (Option.some.inj hhead).symm
      have hqne : p.drop i ≠ [] := by
        apply List.ne_nil_of_length_pos
        rw [List.length_drop]
        omega
      have hqlast : (p.drop i).getLast? = some '\n' := by
        rw [← List.take_append_drop i p] at hlast
        rwa [List.getLast?_append_of_ne_nil _ hqne] at hlast
      obtain ⟨q', hq'⟩ := List.getLast?_eq_some_iff.mp hqlast
      have hdecomp : sepChars = q' ++ (['\n', '-'] ++ a'') := by
        rw [ha1, hq', hy]
        simp
      have hinf : containsSeq ['\n', '-'] sepChars = true := by
        rw [hdecomp]
        exact containsSeq_parts _ _ _
      exact absurd hinf (by decide)
  · have hpre : listIsPrefixB sepChars (p.drop i) = true := by
      rw [hc1]
      exact listIsPrefixB_self_append sepChars c'
    have hc := containsSeq_of_drop sepChars p i hpre
    rw [hnc] at hc
    exact Bool.false_ne_true hc

theorem normContent_data_getLast (c : String) :
    (normContent c).data.getLast? = some '\n' := by
  unfold normContent
  by_cases h : pyEndsWithNL c
  · rw [if_pos h]
    unfold pyEndsWithNL at h
    exact beq_iff_eq.mp h
  · rw [if_neg h]
    rw [show (c ++ "\n").data = c.data ++ ['\n'] from by rw [String.data_append]]
    exact List.getLast?_concat _

theorem pieceData_getLast (p : String × Entry) : (pieceData p).getLast? = some '\n' := by
  unfold pieceData
  have hne : (normContent (readContent p.2)).data ≠ [] := by
    intro h
    have hgl := normContent_data_getLast (readContent p.2)
    rw [h] at hgl
    simp at hgl
  rw [List.getLast?_append_of_ne_nil p.1.data (by simp)]
  rw [show ('\n' :: (normContent (readContent p.2)).data)
      = ['\n'] ++ (normContent (readContent p.2)).data from rfl]
  rw [List.getLast?_append_of_ne_nil ['\n'] hne]
  exact normContent_data_getLast _

theorem fileBlock_data (p : String × Entry) :
    (fileBlock p).data = pieceData p ++ sepChars := by
  unfold fileBlock pieceData sepChars
  rw [String.data_append, String.data_append, String.data_append, String.data_append]
  rw [show ("\n" : String).data = ['\n'] from rfl,
      show ("\n\n" : String).data = ['\n', '\n'] from rfl,
      show sepLine.data = List.replicate 80 '-' from rfl]
  simp [List.append_assoc]

theorem splitOnSeq_joinStr (l : List (String × Entry))
    (h : ∀ p ∈ l, containsSeq sepChars (pieceData p) = false) :
    splitOnSeq sepChars (joinStr (l.map fileBlock)).data = l.map pieceData ++ [[]] := by
  induction l with
  | nil =>
    rw [List.map_nil]
    rw [show joinStr [] = "" from rfl]
    rw [show ("" : String).data = [] from rfl]
    rw [splitOnSeq_nil]
    rfl
  | cons p t ih =>
    rw [List.map_cons]
    rw [show joinStr (fileBlock p :: t.map fileBlock)
        = fileBlock p ++ joinStr (t.map fileBlock) from rfl]
    rw [String.data_append, fileBlock_data]
    rw [List.append_assoc]
    rw [splitOnSeq_append sepChars (pieceData p) _ (by decide)
        (sepChars_no_occ (pieceData p) _ (pieceData_getLast p) (h p (by simp)))]
    rw [ih (fun q hq => h q (by simp [hq]))]
    simp

/-- C5 (amended): when no block's path-plus-content text contains the
80-dash-plus-blank-line separator sequence, splitting the artifact on
that sequence yields, for each included file in order, one piece made of
its relative path, a newline and its newline-normalized content, followed
by a single empty trailing piece. -/
theorem claim_C5 (fs : FS) (ext0 : String) (o : Option String) (m : Option (String → Bool))
    (hne : sortedCandidates fs ext0 o m ≠ [])
    (hclean : ∀ p ∈ sortedCandidates fs ext0 o m, containsSeq sepChars (pieceData p) = false) :
    (aggregate_files fs ext0 o m).1
        = some (joinStr ((sortedCandidates fs ext0 o m).map fileBlock))
    ∧ splitOnSeq sepChars (joinStr ((sortedCandidates fs ext0 o m).map fileBlock)).data
        = (sortedCandidates fs ext0 o m).map pieceData ++ [[]] := by
  refine ⟨?_, splitOnSeq_joinStr _ hclean⟩
  rw [aggregate_files_eq_of_ne_nil fs ext0 o m hne]

/-- The content of the C5 counterexample file: a text that is itself the
80-dash separator line followed by a blank line. -/
def cexContent : String := sepLine ++ "\n\n"

/-- The C5 counterexample tree: a single aggregated file whose content
contains the separator sequence. -/
def cexFS : FS := [("a.txt", Entry.fileOk cexContent)]

/-- The artifact the counterexample run writes. -/
def cexArt : String := "a.txt\n" ++ sepLine ++ "\n\n" ++ sepLine ++ "\n\n"

set_option maxRecDepth 16384 in
/-- C5 counterexample: on a file whose content contains the 80-dash
separator line followed by a blank line, splitting the artifact on the
separator does not yield one piece per included file (with or without
the trailing empty piece): the round-trip claim fails as stated. -/
theorem claim_C5_cex :
    (aggregate_files cexFS ".txt" none none).1 = some cexArt
    ∧ splitOnSeq sepChars cexArt.data
        ≠ (sortedCandidates cexFS ".txt" none none).map pieceData
    ∧ splitOnSeq sepChars cexArt.data
        ≠ (sortedCandidates cexFS ".txt" none none).map pieceData ++ [[]] := by
  have hsorted : sortedCandidates cexFS ".txt" none none
      = [("a.txt", Entry.fileOk cexContent)] := by decide
  have hdata : cexArt.data = ("a.txt\n" : String).data ++ (sepChars ++ sepChars) := by decide
  have hsplit : splitOnSeq sepChars cexArt.data = [("a.txt\n" : String).data, [], []] := by
    rw [hdata]
    rw [splitOnSeq_append sepChars ("a.txt\n" : String).data sepChars (by decide) (by decide)]
    have hself : splitOnSeq sepChars sepChars = [[], []] := by
      have h := splitOnSeq_append sepChars [] [] (by decide) (by simp)
      simpa [splitOnSeq_nil] using h
    rw [hself]
  refine ⟨by decide, ?_, ?_⟩
  · rw [hsplit, hsorted]
    intro hcon
    have := congrArg List.length hcon
    simp at this
  · rw [hsplit, hsorted]
    intro hcon
    have := congrArg List.length hcon
    simp at this

/-! ### Concrete runs witnessing the theorems' hypotheses -/

/-- The spec's §8 scenario tree: two kept files, one ignored file, one
subdirectory. -/
def fsW : FS :=
  [("a.txt", Entry.fileOk "hello"), ("ignore.txt", Entry.fileOk "zzz"),
   ("sub", Entry.dir), ("sub/b.txt", Entry.fileOk "world\n")]

/-- The matcher of the §8 scenario: the single pattern `ignore.txt`. -/
def mW : Option (String → Bool) := some (fun p => p == "ignore.txt")

theorem claim_C1_witness :
    pyLower ".txt" = ".txt"
    ∧ (fsW.map Prod.fst).Nodup
    ∧ ((("sub/b.txt", Entry.fileOk "world\n") ∈ sortedCandidates fsW ".txt" none mW) ↔
        (("sub/b.txt", Entry.fileOk "world\n") ∈ fsW
          ∧ (Entry.fileOk "world\n").isFile = true
          ∧ pyLower (pySuffix (lastComponent "sub/b.txt")) = ".txt"
          ∧ matcherHits mW "sub/b.txt" = false
          ∧ (none : Option String) ≠ some "sub/b.txt"))
    ∧ List.Pairwise (fun a b : String × Entry =>
        List.Lex (fun s t : List Char => List.Lex (· < ·) s t)
          (a.1.data.splitOn '/') (b.1.data.splitOn '/'))
        (sortedCandidates fsW ".txt" none mW) :=
  ⟨by decide, by decide,
    (claim_C1 fsW ".txt" none mW (by decide) (by decide)).1 ("sub/b.txt", Entry.fileOk "world\n"),
    (claim_C1 fsW ".txt" none mW (by decide) (by decide)).2⟩

theorem claim_C2_witness :
    sortedCandidates fsW ".txt" none mW ≠ []
    ∧ aggregate_files fsW ".txt" none mW
        = (some (joinStr ((sortedCandidates fsW ".txt" none mW).map specBlockOf)),
           (sortedCandidates fsW ".txt" none mW).length) :=
  ⟨by decide, claim_C2 fsW ".txt" none mW (by decide)⟩

/-- A tree containing a file whose read raises. -/
def fsErr : FS := [("a.txt", Entry.fileOk "hi"), ("bad.txt", Entry.fileErr "boom")]

theorem claim_C4_witness :
    ("bad.txt", Entry.fileErr "boom") ∈ sortedCandidates fsErr ".txt" none none
    ∧ ((aggregate_files fsErr ".txt" none none).2
        = (sortedCandidates fsErr ".txt" none none).length
      ∧ ∃ s₁ s₂ : String, (aggregate_files fsErr ".txt" none none).1
          = some (s₁ ++ ("bad.txt" ++ "\n" ++ "[Error reading file: " ++ "boom" ++ "]" ++ "\n"
              ++ sepLine ++ "\n\n") ++ s₂)) :=
  ⟨by decide, claim_C4 fsErr ".txt" none none "bad.txt" "boom" (by decide)⟩

theorem claim_C5_witness :
    sortedCandidates fsW ".txt" none mW ≠ []
    ∧ (sortedCandidates fsW ".txt" none mW).all
        (fun p => !(containsSeq sepChars (pieceData p))) = true
    ∧ ((aggregate_files fsW ".txt" none mW).1
        = some (joinStr ((sortedCandidates fsW ".txt" none mW).map fileBlock))
      ∧ splitOnSeq sepChars (joinStr ((sortedCandidates fsW ".txt" none mW).map fileBlock)).data
        = (sortedCandidates fsW ".txt" none mW).map pieceData ++ [[]]) :=
  ⟨by decide, by decide, claim_C5 fsW ".txt" none mW (by decide) (by decide)⟩

theorem claim_C7_witness :
    aggregate_files fsW (cliNormalizeExt "TXT") none mW
      = aggregate_files fsW (cliNormalizeExt "txt") none mW
    ∧ aggregate_files fsW (cliNormalizeExt "TXT") none mW
      = aggregate_files fsW (cliNormalizeExt ("." ++ "TXT")) none mW :=
  ⟨(claim_C7 fsW none mW "TXT" "txt").1 (by decide),
   (claim_C7 fsW none mW "TXT" "TXT").2 (by decide)⟩

/-- A tree with no file of the filtered extension. -/
def fsMd : FS := [("a.md", Entry.fileOk "x")]

theorem claim_C10_witness :
    candidateFiles fsMd (pyLower ".txt") none none = []
    ∧ (aggregate_files fsMd ".txt" none none = (none, 0)
      ∧ runEffect fsMd ".txt" none none = fsMd) :=
  ⟨by decide, claim_C10 fsMd ".txt" none none (by decide)⟩

end Aggrefiles
